import Mathlib

/-!
# Verification of the `Stakes` cache (`runtime/src/stakes.rs`)

Shallow embedding of the stake cache: two association-list maps
(`vote_accounts`, `stake_accounts`), the incremental mutator `store`,
and the full rescan `calculate_stake`.  All `u64` arithmetic is modelled
on `Nat` with explicit wrap-around modulo `2^64`.
-/

/-- Public-key identifiers (`Pubkey`), modelled as natural numbers. -/
abbrev Pubkey := Nat

/-- Modelled from the spec: an account carries its balance (`lamports`),
its owning program (`owner`) and a payload.  The payload of a
delegation account is represented directly by its decode result: an
optional `(target_validator, delegated_stake_amount)` pair, since the
decode functions (`StakeState::from` and friends, in `solana_stake_api`)
are external collaborators not part of this core. -/
structure Account where
  lamports : Nat
  owner : Pubkey
  stakeData : Option (Pubkey × Nat)
deriving DecidableEq

/-- `2^64`, the modulus of `u64` arithmetic. -/
def U64M : Nat := 18446744073709551616

/-- Wrapping `u64` addition (`+=` on a `u64`). -/
def wadd (a b : Nat) : Nat := (a + b) % U64M

/-- Wrapping `u64` subtraction (`-=` on a `u64`). -/
def wsub (a b : Nat) : Nat := (a + (U64M - b % U64M)) % U64M

/-- Modelled from the spec: the well-known vote-program identity
(`solana_vote_api::id()`). -/
def vote_program_id : Pubkey := 0

/-- Modelled from the spec: the well-known stake-program identity
(`solana_stake_api::id()`), distinct from the vote program's. -/
def stake_program_id : Pubkey := 1

/-- `solana_vote_api::check_id`. -/
def vote_api_check_id (p : Pubkey) : Bool := p = vote_program_id

/-- `solana_stake_api::check_id`. -/
def stake_api_check_id (p : Pubkey) : Bool := p = stake_program_id

/-- Modelled from the spec: `StakeState::voter_pubkey_and_stake_from`,
the delegation decode `payload -> optional (target_identity, amount)`. -/
def voter_pubkey_and_stake_from (a : Account) : Option (Pubkey × Nat) :=
  a.stakeData

/-- Modelled from the spec: `StakeState::voter_pubkey_from`, extracting
just the target identity from a (possibly closing) delegation payload. -/
def voter_pubkey_from (a : Account) : Option Pubkey :=
  a.stakeData.map Prod.fst

/-- Association-list lookup (`HashMap::get`). -/
def alookup {α : Type} (k : Pubkey) : List (Pubkey × α) → Option α
  | [] => none
  | (k', v) :: t => if k' = k then some v else alookup k t

/-- Association-list insert/overwrite (`HashMap::insert`). -/
def ainsert {α : Type} (k : Pubkey) (v : α) : List (Pubkey × α) → List (Pubkey × α)
  | [] => [(k, v)]
  | (k', v') :: t => if k' = k then (k, v) :: t else (k', v') :: ainsert k v t

/-- Association-list removal (`HashMap::remove`). -/
def aerase {α : Type} (k : Pubkey) : List (Pubkey × α) → List (Pubkey × α)
  | [] => []
  | (k', v') :: t => if k' = k then t else (k', v') :: aerase k t

/-- In-place update of an existing entry (`Entry::and_modify`): applies
`f` to the value at key `k` if present, does nothing otherwise. -/
def amodify {α : Type} (k : Pubkey) (f : α → α) : List (Pubkey × α) → List (Pubkey × α)
  | [] => []
  | (k', v') :: t => if k' = k then (k', f v') :: t else (k', v') :: amodify k f t

/-- Key uniqueness of an association list (the `HashMap` abstraction). -/
def NodupKeys {α : Type} (m : List (Pubkey × α)) : Prop :=
  (m.map Prod.fst).Nodup

instance {α : Type} (m : List (Pubkey × α)) : Decidable (NodupKeys m) := by
  unfold NodupKeys; infer_instance

/-- Contribution of one optional decoded pair to a given voter: `stake`
when the pair decodes and points to `voter`, `0` otherwise. -/
def pairContrib (voter : Pubkey) : Option (Pubkey × Nat) → Nat
  | some (voter_pubkey, stake) => if voter = voter_pubkey then stake else 0
  | none => 0

/-- The body of the closure in `Stakes::calculate_stake`:
`match StakeState::from(stake_account) { Some(StakeState::Stake { voter_pubkey, stake, .. })
if *voter == voter_pubkey => stake, _ => 0 }`. -/
def delegContrib (voter : Pubkey) (a : Account) : Nat :=
  pairContrib voter (voter_pubkey_and_stake_from a)

/-- The `Stakes` cache: `vote_accounts` maps a validator identity to its
cached aggregate stake and latest account; `stake_accounts` maps a
delegator identity to its latest account. -/
structure Stakes where
  vote_accounts : List (Pubkey × (Nat × Account))
  stake_accounts : List (Pubkey × Account)
deriving DecidableEq

/-- `Stakes::default()`. -/
def emptyStakes : Stakes := { vote_accounts := [], stake_accounts := [] }

/-- `Stakes::calculate_stake`: sum (in `u64` arithmetic) of the stakes
of all delegation entries that point to the given voter. -/
def calculate_stake (s : Stakes) (voter : Pubkey) : Nat :=
  (s.stake_accounts.map (fun p => delegContrib voter p.2)).foldr wadd 0

/-- `Stakes::is_stake`. -/
def is_stake (account : Account) : Bool :=
  vote_api_check_id account.owner || stake_api_check_id account.owner

/-- The decoded pre-`store` delegation pair of the entry at `pubkey`
(the `old_stake` local of `Stakes::store`). -/
def old_stake_of (s : Stakes) (pubkey : Pubkey) : Option (Pubkey × Nat) :=
  (alookup pubkey s.stake_accounts).bind voter_pubkey_and_stake_from

/-- The decoded post-`store` delegation pair of the stored account (the
`stake` local of `Stakes::store`): decoded in full when the balance is
nonzero, and as `(target, 0)` when the balance is zero. -/
def new_stake_of (account : Account) : Option (Pubkey × Nat) :=
  if account.lamports ≠ 0 then voter_pubkey_and_stake_from account
  else (voter_pubkey_from account).map (fun voter_pubkey => (voter_pubkey, 0))

/-- The first `and_modify` adjustment of `Stakes::store`: if an old pair
was decoded, subtract its amount from the entry at its target — only if
that key is already present. -/
def applySub (old_stake : Option (Pubkey × Nat))
    (va : List (Pubkey × (Nat × Account))) : List (Pubkey × (Nat × Account)) :=
  match old_stake with
  | some (old_voter_pubkey, old_amt) =>
      amodify old_voter_pubkey (fun e => (wsub e.1 old_amt, e.2)) va
  | none => va

/-- The second `and_modify` adjustment of `Stakes::store`: if a new pair
was decoded, add its amount to the entry at its target — only if that
key is already present. -/
def applyAdd (stake : Option (Pubkey × Nat))
    (va : List (Pubkey × (Nat × Account))) : List (Pubkey × (Nat × Account)) :=
  match stake with
  | some (voter_pubkey, amt) => amodify voter_pubkey (fun e => (wadd e.1 amt, e.2)) va
  | none => va

/-- The pair of `and_modify` adjustments of `Stakes::store`. -/
def applyDeltas (old_stake stake : Option (Pubkey × Nat))
    (va : List (Pubkey × (Nat × Account))) : List (Pubkey × (Nat × Account)) :=
  applyAdd stake (applySub old_stake va)

/-- The stake value associated with a vote entry on insert (the `stake`
local of the vote branch of `Stakes::store`):
`self.vote_accounts.get(pubkey).map_or_else(|| self.calculate_stake(pubkey), |v| v.0)`. -/
def stored_vote_stake (s : Stakes) (pubkey : Pubkey) : Nat :=
  match alookup pubkey s.vote_accounts with
  | some v => v.1
  | none => calculate_stake s pubkey

/-- `Stakes::store`. -/
def store (s : Stakes) (pubkey : Pubkey) (account : Account) : Stakes :=
  if vote_api_check_id account.owner then
    if account.lamports = 0 then
      { s with vote_accounts := aerase pubkey s.vote_accounts }
    else
      let stake := stored_vote_stake s pubkey
      { s with vote_accounts := ainsert pubkey (stake, account) s.vote_accounts }
  else if stake_api_check_id account.owner then
    let old_stake := old_stake_of s pubkey
    let stake := new_stake_of account
    let va := if stake ≠ old_stake then applyDeltas old_stake stake s.vote_accounts
      else s.vote_accounts
    let sa := if account.lamports = 0 then aerase pubkey s.stake_accounts
      else ainsert pubkey account s.stake_accounts
    { vote_accounts := va, stake_accounts := sa }
  else s

/-- States reachable from the empty cache by a sequence of `store`s. -/
inductive Reachable : Stakes → Prop
  | empty : Reachable emptyStakes
  | step {s : Stakes} (pubkey : Pubkey) (account : Account) :
      Reachable s → Reachable (store s pubkey account)

/-- The exact (unbounded) delegated sum over a raw delegation table. -/
def dsum (dt : List (Pubkey × Account)) (voter : Pubkey) : Nat :=
  (dt.map (fun p => delegContrib voter p.2)).sum

/-- Spec-side restatement of the full rescan (§4.4): iterate every entry
of the delegation table, decode each payload, and sum
`delegated_stake_amount` (as an unbounded natural number) over every
entry whose decoded target equals the given identity; entries that fail
to decode, or decode but target a different validator, contribute zero. -/
def specDelegatedSum (s : Stakes) (voter : Pubkey) : Nat :=
  dsum s.stake_accounts voter

/-! ## Association-list lemmas -/

theorem alookup_eq_none_of_not_mem {α : Type} {k : Pubkey} {m : List (Pubkey × α)}
    (h : k ∉ m.map Prod.fst) : alookup k m = none := by
  induction m with
  | nil => rfl
  | cons hd t ih =>
    obtain ⟨k', v'⟩ := hd
    simp only [List.map_cons, List.mem_cons] at h
    push_neg at h
    have hne : ¬ (k' = k) := fun hh => h.1 hh.symm
    simp [alookup, hne, ih h.2]

theorem alookup_ainsert_self {α : Type} (k : Pubkey) (v : α) (m : List (Pubkey × α)) :
    alookup k (ainsert k v m) = some v := by
  induction m with
  | nil => simp [ainsert, alookup]
  | cons hd t ih =>
    obtain ⟨k', v'⟩ := hd
    by_cases hk : k' = k
    · simp [ainsert, hk, alookup]
    · simp [ainsert, hk, alookup, ih]

theorem alookup_ainsert_ne {α : Type} {k' k : Pubkey} (hne : k' ≠ k) (v : α)
    (m : List (Pubkey × α)) : alookup k' (ainsert k v m) = alookup k' m := by
  have hkk' : ¬ (k = k') := fun hh => hne hh.symm
  induction m with
  | nil => simp [ainsert, alookup, hkk']
  | cons hd t ih =>
    obtain ⟨k0, v0⟩ := hd
    by_cases hk : k0 = k
    · subst hk
      simp [ainsert, alookup, hkk']
    · simp [ainsert, hk, alookup, ih]

theorem aerase_of_not_mem {α : Type} {k : Pubkey} {m : List (Pubkey × α)}
    (h : alookup k m = none) : aerase k m = m := by
  induction m with
  | nil => rfl
  | cons hd t ih =>
    obtain ⟨k', v'⟩ := hd
    by_cases hk : k' = k
    · simp [alookup, hk] at h
    · simp only [alookup, hk, if_false] at h
      simp [aerase, hk, ih h]

theorem alookup_aerase_ne {α : Type} {k' k : Pubkey} (hne : k' ≠ k)
    (m : List (Pubkey × α)) : alookup k' (aerase k m) = alookup k' m := by
  have hkk' : ¬ (k = k') := fun hh => hne hh.symm
  induction m with
  | nil => rfl
  | cons hd t ih =>
    obtain ⟨k0, v0⟩ := hd
    by_cases hk : k0 = k
    · subst hk
      simp [aerase, alookup, hkk']
    · simp [aerase, hk, alookup, ih]

theorem alookup_aerase_self {α : Type} {k : Pubkey} {m : List (Pubkey × α)}
    (h : NodupKeys m) : alookup k (aerase k m) = none := by
  induction m with
  | nil => rfl
  | cons hd t ih =>
    obtain ⟨k', v'⟩ := hd
    simp only [NodupKeys, List.map_cons, List.nodup_cons] at h
    by_cases hk : k' = k
    · subst hk
      simp only [aerase, if_pos rfl]
      exact alookup_eq_none_of_not_mem h.1
    · simp only [aerase, hk, if_false, alookup, if_false]
      exact ih h.2

theorem alookup_amodify_self {α : Type} (k : Pubkey) (f : α → α) (m : List (Pubkey × α)) :
    alookup k (amodify k f m) = (alookup k m).map f := by
  induction m with
  | nil => rfl
  | cons hd t ih =>
    obtain ⟨k', v'⟩ := hd
    by_cases hk : k' = k
    · simp [amodify, hk, alookup]
    · simp [amodify, hk, alookup, ih]

theorem alookup_amodify_ne {α : Type} {k' k : Pubkey} (hne : k' ≠ k) (f : α → α)
    (m : List (Pubkey × α)) : alookup k' (amodify k f m) = alookup k' m := by
  have hkk' : ¬ (k = k') := fun hh => hne hh.symm
  induction m with
  | nil => rfl
  | cons hd t ih =>
    obtain ⟨k0, v0⟩ := hd
    by_cases hk : k0 = k
    · subst hk
      simp [amodify, alookup, hkk']
    · simp [amodify, hk, alookup, ih]

theorem keys_amodify {α : Type} (k : Pubkey) (f : α → α) (m : List (Pubkey × α)) :
    (amodify k f m).map Prod.fst = m.map Prod.fst := by
  induction m with
  | nil => rfl
  | cons hd t ih =>
    obtain ⟨k', v'⟩ := hd
    by_cases hk : k' = k
    · simp [amodify, hk]
    · simp [amodify, hk, ih]

theorem ainsert_cons {α : Type} (k : Pubkey) (v : α) (k' : Pubkey) (v' : α)
    (t : List (Pubkey × α)) :
    ainsert k v ((k', v') :: t) =
      if k' = k then (k, v) :: t else (k', v') :: ainsert k v t := rfl

theorem mem_keys_of_mem_keys_ainsert {α : Type} {x k : Pubkey} {v : α}
    {m : List (Pubkey × α)} (h : x ∈ (ainsert k v m).map Prod.fst) :
    x = k ∨ x ∈ m.map Prod.fst := by
  induction m with
  | nil =>
    simp only [ainsert, List.map_cons, List.map_nil, List.mem_singleton] at h
    exact Or.inl h
  | cons hd t ih =>
    obtain ⟨k', v'⟩ := hd
    by_cases hk : k' = k
    · rw [ainsert_cons, if_pos hk, List.map_cons] at h
      rcases List.mem_cons.mp h with h1 | h1
      · exact Or.inl h1
      · right
        rw [List.map_cons]
        exact List.mem_cons.mpr (Or.inr h1)
    · rw [ainsert_cons, if_neg hk, List.map_cons] at h
      rcases List.mem_cons.mp h with h1 | h1
      · right
        rw [List.map_cons]
        exact List.mem_cons.mpr (Or.inl h1)
      · rcases ih h1 with h2 | h2
        · exact Or.inl h2
        · right
          rw [List.map_cons]
          exact List.mem_cons.mpr (Or.inr h2)

theorem nodupKeys_ainsert {α : Type} (k : Pubkey) (v : α) {m : List (Pubkey × α)}
    (h : NodupKeys m) : NodupKeys (ainsert k v m) := by
  induction m with
  | nil => simp [ainsert, NodupKeys]
  | cons hd t ih =>
    obtain ⟨k', v'⟩ := hd
    simp only [NodupKeys, List.map_cons, List.nodup_cons] at h
    by_cases hk : k' = k
    · subst hk
      simpa [NodupKeys, ainsert] using h
    · have ht := ih h.2
      simp only [NodupKeys, ainsert, hk, if_false, List.map_cons, List.nodup_cons]
      refine ⟨fun hmem => ?_, ht⟩
      rcases mem_keys_of_mem_keys_ainsert hmem with h' | h'
      · exact hk h'
      · exact h.1 h'

theorem keys_aerase_sublist {α : Type} (k : Pubkey) (m : List (Pubkey × α)) :
    List.Sublist ((aerase k m).map Prod.fst) (m.map Prod.fst) := by
  induction m with
  | nil => simp [aerase]
  | cons hd t ih =>
    obtain ⟨k', v'⟩ := hd
    by_cases hk : k' = k
    · simp only [aerase, hk, if_pos rfl, List.map_cons]
      exact List.Sublist.cons _ (List.Sublist.refl _)
    · simp only [aerase, hk, if_false, List.map_cons]
      exact List.Sublist.cons₂ _ ih

theorem nodupKeys_aerase {α : Type} (k : Pubkey) {m : List (Pubkey × α)}
    (h : NodupKeys m) : NodupKeys (aerase k m) :=
  List.Nodup.sublist (keys_aerase_sublist k m) h

theorem nodupKeys_amodify {α : Type} (k : Pubkey) (f : α → α) {m : List (Pubkey × α)}
    (h : NodupKeys m) : NodupKeys (amodify k f m) := by
  unfold NodupKeys
  rw [keys_amodify]
  exact h

/-! ## `u64` arithmetic lemmas -/

theorem U64M_pos : 0 < U64M := by
  simp [U64M]

theorem wadd_mod_left (x c : Nat) : wadd (x % U64M) c = (x + c) % U64M := by
  simp only [wadd, U64M]
  omega

theorem wsub_mod_of_le {x b : Nat} (h : b ≤ x) :
    wsub (x % U64M) b = (x - b) % U64M := by
  simp only [wsub, U64M]
  omega

theorem wadd_lt (a b : Nat) : wadd a b < U64M :=
  Nat.mod_lt _ U64M_pos

theorem wsub_lt (a b : Nat) : wsub a b < U64M :=
  Nat.mod_lt _ U64M_pos

theorem wadd_zero_of_lt {a : Nat} (h : a < U64M) : wadd a 0 = a := by
  simp only [wadd, Nat.add_zero]
  exact Nat.mod_eq_of_lt h

theorem wsub_zero_of_lt {a : Nat} (h : a < U64M) : wsub a 0 = a := by
  simp only [wsub, U64M] at h ⊢
  omega

/-! ## Sum lemmas -/

theorem foldr_wadd_eq_sum_mod (l : List Nat) : l.foldr wadd 0 = l.sum % U64M := by
  induction l with
  | nil => simp
  | cons a t ih =>
    simp only [List.foldr_cons, List.sum_cons, ih]
    simp only [wadd, U64M]
    omega

/-- The code's full rescan is the spec's exact sum, reduced modulo `2^64`. -/
theorem calculate_stake_eq_spec (s : Stakes) (v : Pubkey) :
    calculate_stake s v = specDelegatedSum s v % U64M :=
  foldr_wadd_eq_sum_mod _

theorem dsum_nil (v : Pubkey) : dsum [] v = 0 := rfl

theorem dsum_cons (k : Pubkey) (a : Account) (t : List (Pubkey × Account)) (v : Pubkey) :
    dsum ((k, a) :: t) v = delegContrib v a + dsum t v := by
  simp [dsum]

theorem dsum_ainsert_present {k : Pubkey} {dt : List (Pubkey × Account)} {acc : Account}
    (h : alookup k dt = some acc) (a : Account) (v : Pubkey) :
    dsum (ainsert k a dt) v + delegContrib v acc = dsum dt v + delegContrib v a := by
  induction dt with
  | nil => simp [alookup] at h
  | cons hd t ih =>
    obtain ⟨k0, a0⟩ := hd
    by_cases hk : k0 = k
    · rw [alookup, if_pos hk] at h
      injection h with h
      subst h
      rw [ainsert_cons, if_pos hk, dsum_cons, dsum_cons]
      omega
    · rw [alookup, if_neg hk] at h
      rw [ainsert_cons, if_neg hk, dsum_cons, dsum_cons]
      have := ih h
      omega

theorem dsum_ainsert_absent {k : Pubkey} {dt : List (Pubkey × Account)}
    (h : alookup k dt = none) (a : Account) (v : Pubkey) :
    dsum (ainsert k a dt) v = dsum dt v + delegContrib v a := by
  induction dt with
  | nil => simp [ainsert, dsum, delegContrib]
  | cons hd t ih =>
    obtain ⟨k0, a0⟩ := hd
    by_cases hk : k0 = k
    · rw [alookup, if_pos hk] at h
      exact absurd h (by simp)
    · rw [alookup, if_neg hk] at h
      rw [ainsert_cons, if_neg hk, dsum_cons, dsum_cons, ih h]
      omega

theorem dsum_aerase_present {k : Pubkey} {dt : List (Pubkey × Account)} {acc : Account}
    (h : alookup k dt = some acc) (v : Pubkey) :
    dsum (aerase k dt) v + delegContrib v acc = dsum dt v := by
  induction dt with
  | nil => simp [alookup] at h
  | cons hd t ih =>
    obtain ⟨k0, a0⟩ := hd
    by_cases hk : k0 = k
    · rw [alookup, if_pos hk] at h
      injection h with h
      subst h
      rw [aerase, if_pos hk, dsum_cons]
      omega
    · rw [alookup, if_neg hk] at h
      rw [aerase, if_neg hk, dsum_cons, dsum_cons]
      have := ih h
      omega

theorem delegContrib_le_dsum {k : Pubkey} {dt : List (Pubkey × Account)} {acc : Account}
    (h : alookup k dt = some acc) (v : Pubkey) :
    delegContrib v acc ≤ dsum dt v := by
  induction dt with
  | nil => simp [alookup] at h
  | cons hd t ih =>
    obtain ⟨k0, a0⟩ := hd
    by_cases hk : k0 = k
    · rw [alookup, if_pos hk] at h
      injection h with h
      subst h
      rw [dsum_cons]
      omega
    · rw [alookup, if_neg hk] at h
      rw [dsum_cons]
      have := ih h
      omega

/-! ## Delta-application lemmas -/

theorem alookup_amodify_of_none {α : Type} {v t : Pubkey} {f : α → α}
    {m : List (Pubkey × α)} (h : alookup v m = none) :
    alookup v (amodify t f m) = none := by
  by_cases hv : v = t
  · subst hv
    rw [alookup_amodify_self, h]
    rfl
  · rw [alookup_amodify_ne hv]
    exact h

theorem alookup_applySub_none {o : Option (Pubkey × Nat)}
    {va : List (Pubkey × (Nat × Account))} {v : Pubkey}
    (h : alookup v va = none) : alookup v (applySub o va) = none := by
  match o with
  | none => exact h
  | some (ot, oa) => exact alookup_amodify_of_none h

theorem alookup_applyAdd_none {n : Option (Pubkey × Nat)}
    {va : List (Pubkey × (Nat × Account))} {v : Pubkey}
    (h : alookup v va = none) : alookup v (applyAdd n va) = none := by
  match n with
  | none => exact h
  | some (nt, na) => exact alookup_amodify_of_none h

theorem alookup_applyDeltas_none {o n : Option (Pubkey × Nat)}
    {va : List (Pubkey × (Nat × Account))} {v : Pubkey}
    (h : alookup v va = none) : alookup v (applyDeltas o n va) = none :=
  alookup_applyAdd_none (alookup_applySub_none h)

theorem alookup_applySub_some {o : Option (Pubkey × Nat)}
    {va : List (Pubkey × (Nat × Account))} {v : Pubkey} {s0 : Nat} {a0 : Account}
    (h : alookup v va = some (s0, a0)) (hlt : s0 < U64M) :
    alookup v (applySub o va) = some (wsub s0 (pairContrib v o), a0) := by
  match o with
  | none => simpa [applySub, pairContrib, wsub_zero_of_lt hlt] using h
  | some (ot, oa) =>
    by_cases hv : v = ot
    · subst hv
      show alookup v (amodify v _ va) = _
      rw [alookup_amodify_self, h]
      simp [pairContrib]
    · show alookup v (amodify ot _ va) = _
      rw [alookup_amodify_ne hv, h]
      simp [pairContrib, hv, wsub_zero_of_lt hlt]

theorem alookup_applyAdd_some {n : Option (Pubkey × Nat)}
    {va : List (Pubkey × (Nat × Account))} {v : Pubkey} {s0 : Nat} {a0 : Account}
    (h : alookup v va = some (s0, a0)) (hlt : s0 < U64M) :
    alookup v (applyAdd n va) = some (wadd s0 (pairContrib v n), a0) := by
  match n with
  | none => simpa [applyAdd, pairContrib, wadd_zero_of_lt hlt] using h
  | some (nt, na) =>
    by_cases hv : v = nt
    · subst hv
      show alookup v (amodify v _ va) = _
      rw [alookup_amodify_self, h]
      simp [pairContrib]
    · show alookup v (amodify nt _ va) = _
      rw [alookup_amodify_ne hv, h]
      simp [pairContrib, hv, wadd_zero_of_lt hlt]

theorem alookup_applyDeltas_some {o n : Option (Pubkey × Nat)}
    {va : List (Pubkey × (Nat × Account))} {v : Pubkey} {s0 : Nat} {a0 : Account}
    (h : alookup v va = some (s0, a0)) (hlt : s0 < U64M) :
    alookup v (applyDeltas o n va) =
      some (wadd (wsub s0 (pairContrib v o)) (pairContrib v n), a0) :=
  alookup_applyAdd_some (alookup_applySub_some h hlt) (wsub_lt _ _)

theorem keys_applySub (o : Option (Pubkey × Nat)) (va : List (Pubkey × (Nat × Account))) :
    (applySub o va).map Prod.fst = va.map Prod.fst := by
  match o with
  | none => rfl
  | some (ot, oa) => exact keys_amodify _ _ _

theorem keys_applyAdd (n : Option (Pubkey × Nat)) (va : List (Pubkey × (Nat × Account))) :
    (applyAdd n va).map Prod.fst = va.map Prod.fst := by
  match n with
  | none => rfl
  | some (nt, na) => exact keys_amodify _ _ _

theorem keys_applyDeltas (o n : Option (Pubkey × Nat))
    (va : List (Pubkey × (Nat × Account))) :
    (applyDeltas o n va).map Prod.fst = va.map Prod.fst := by
  unfold applyDeltas
  rw [keys_applyAdd, keys_applySub]

theorem nodupKeys_applyDeltas {o n : Option (Pubkey × Nat)}
    {va : List (Pubkey × (Nat × Account))} (h : NodupKeys va) :
    NodupKeys (applyDeltas o n va) := by
  unfold NodupKeys
  rw [keys_applyDeltas]
  exact h

/-! ## `store` branch characterizations -/

theorem store_vote_zero {s : Stakes} {pubkey : Pubkey} {account : Account}
    (h1 : vote_api_check_id account.owner = true) (h2 : account.lamports = 0) :
    store s pubkey account = { s with vote_accounts := aerase pubkey s.vote_accounts } := by
  simp [store, h1, h2]

theorem store_vote_pos {s : Stakes} {pubkey : Pubkey} {account : Account}
    (h1 : vote_api_check_id account.owner = true) (h2 : account.lamports ≠ 0) :
    store s pubkey account =
      { s with vote_accounts :=
          ainsert pubkey (stored_vote_stake s pubkey, account) s.vote_accounts } := by
  simp [store, h1, h2]

theorem store_stake_eq {s : Stakes} {pubkey : Pubkey} {account : Account}
    (h1 : vote_api_check_id account.owner = false)
    (h2 : stake_api_check_id account.owner = true) :
    store s pubkey account =
      { vote_accounts :=
          if new_stake_of account ≠ old_stake_of s pubkey then
            applyDeltas (old_stake_of s pubkey) (new_stake_of account) s.vote_accounts
          else s.vote_accounts,
        stake_accounts :=
          if account.lamports = 0 then aerase pubkey s.stake_accounts
          else ainsert pubkey account s.stake_accounts } := by
  simp [store, h1, h2]

theorem store_other {s : Stakes} {pubkey : Pubkey} {account : Account}
    (h1 : vote_api_check_id account.owner = false)
    (h2 : stake_api_check_id account.owner = false) :
    store s pubkey account = s := by
  simp [store, h1, h2]

/-! ## Auxiliary facts about decoded pairs -/

theorem pairContrib_new_zero {account : Account} (h : account.lamports = 0)
    (v : Pubkey) : pairContrib v (new_stake_of account) = 0 := by
  simp only [new_stake_of, h]
  cases hvp : voter_pubkey_from account with
  | none => simp [pairContrib]
  | some w => simp [pairContrib]

theorem old_stake_of_eq_some {s : Stakes} {pubkey : Pubkey} {acc : Account}
    (h : alookup pubkey s.stake_accounts = some acc) :
    old_stake_of s pubkey = voter_pubkey_and_stake_from acc := by
  simp [old_stake_of, h]

theorem old_stake_of_eq_none {s : Stakes} {pubkey : Pubkey}
    (h : alookup pubkey s.stake_accounts = none) :
    old_stake_of s pubkey = none := by
  simp [old_stake_of, h]

theorem new_stake_of_pos {account : Account} (h : account.lamports ≠ 0) :
    new_stake_of account = voter_pubkey_and_stake_from account := by
  simp [new_stake_of, h]

theorem delegContrib_eq_pairContrib (v : Pubkey) (a : Account) :
    delegContrib v a = pairContrib v (voter_pubkey_and_stake_from a) := rfl

/-! ## The reachable-state aggregation invariant -/

/-- Invariant carried through `store`: both maps have unique keys, and
every cached aggregate equals the exact delegated sum reduced mod
`2^64`. -/
def AggInvariant (s : Stakes) : Prop :=
  NodupKeys s.vote_accounts ∧ NodupKeys s.stake_accounts ∧
  ∀ v n a, alookup v s.vote_accounts = some (n, a) →
    n = dsum s.stake_accounts v % U64M

theorem aggInvariant_empty : AggInvariant emptyStakes := by
  refine ⟨?_, ?_, ?_⟩
  · simp [NodupKeys, emptyStakes]
  · simp [NodupKeys, emptyStakes]
  · intro v n a h
    simp [emptyStakes, alookup] at h

theorem stored_vote_stake_eq {s : Stakes} (hinv : AggInvariant s) (pubkey : Pubkey) :
    stored_vote_stake s pubkey = dsum s.stake_accounts pubkey % U64M := by
  unfold stored_vote_stake
  cases hlk : alookup pubkey s.vote_accounts with
  | none => exact calculate_stake_eq_spec s pubkey
  | some v0 =>
    obtain ⟨n0, a0⟩ := v0
    exact hinv.2.2 pubkey n0 a0 hlk

/-- How one delegation-branch `store` moves the exact delegated sum: the
old pair's contribution is a summand of the old sum, and the new table's
sum is the old one minus the old contribution plus the new one. -/
theorem dsum_store_stake_update (s : Stakes) (pubkey : Pubkey) (account : Account)
    (v : Pubkey) :
    pairContrib v (old_stake_of s pubkey) ≤ dsum s.stake_accounts v ∧
    dsum (if account.lamports = 0 then aerase pubkey s.stake_accounts
          else ainsert pubkey account s.stake_accounts) v
      + pairContrib v (old_stake_of s pubkey)
      = dsum s.stake_accounts v + pairContrib v (new_stake_of account) := by
  cases hlk : alookup pubkey s.stake_accounts with
  | none =>
    rw [old_stake_of_eq_none hlk]
    refine ⟨by simp [pairContrib], ?_⟩
    by_cases hl : account.lamports = 0
    · rw [if_pos hl, aerase_of_not_mem hlk, pairContrib_new_zero hl]
      simp [pairContrib]
    · rw [if_neg hl, dsum_ainsert_absent hlk, new_stake_of_pos hl,
        ← delegContrib_eq_pairContrib v account]
      simp [pairContrib]
  | some acc0 =>
    rw [old_stake_of_eq_some hlk, ← delegContrib_eq_pairContrib v acc0]
    have hle := delegContrib_le_dsum hlk v
    refine ⟨hle, ?_⟩
    by_cases hl : account.lamports = 0
    · rw [if_pos hl, pairContrib_new_zero hl]
      have hkill := dsum_aerase_present hlk v
      omega
    · rw [if_neg hl, new_stake_of_pos hl, ← delegContrib_eq_pairContrib v account]
      have hrepl := dsum_ainsert_present hlk account v
      omega

theorem aggInvariant_store {s : Stakes} (h : AggInvariant s) (pubkey : Pubkey)
    (account : Account) : AggInvariant (store s pubkey account) := by
  obtain ⟨hnv, hns, hagg⟩ := h
  by_cases hv : vote_api_check_id account.owner = true
  · by_cases hl : account.lamports = 0
    · rw [store_vote_zero hv hl]
      refine ⟨nodupKeys_aerase _ hnv, hns, ?_⟩
      intro v n a hlook
      by_cases hvp : v = pubkey
      · subst hvp
        rw [alookup_aerase_self hnv] at hlook
        exact absurd hlook (by simp)
      · rw [alookup_aerase_ne hvp] at hlook
        exact hagg v n a hlook
    · rw [store_vote_pos hv hl]
      refine ⟨nodupKeys_ainsert _ _ hnv, hns, ?_⟩
      intro v n a hlook
      by_cases hvp : v = pubkey
      · subst hvp
        rw [alookup_ainsert_self] at hlook
        injection hlook with hpair
        injection hpair with hn ha
        subst hn
        exact stored_vote_stake_eq ⟨hnv, hns, hagg⟩ v
      · rw [alookup_ainsert_ne hvp] at hlook
        exact hagg v n a hlook
  · have hv' : vote_api_check_id account.owner = false := by
      simpa using hv
    by_cases hs : stake_api_check_id account.owner = true
    · rw [store_stake_eq hv' hs]
      refine ⟨?_, ?_, ?_⟩
      · by_cases hne : new_stake_of account = old_stake_of s pubkey
        · dsimp only
          rw [if_neg (by simp [hne])]
          exact hnv
        · dsimp only
          rw [if_pos hne]
          exact nodupKeys_applyDeltas hnv
      · by_cases hl : account.lamports = 0
        · dsimp only
          rw [if_pos hl]
          exact nodupKeys_aerase _ hns
        · dsimp only
          rw [if_neg hl]
          exact nodupKeys_ainsert _ _ hns
      · intro v n a hlook
        dsimp only at hlook ⊢
        obtain ⟨hle, hupd⟩ := dsum_store_stake_update s pubkey account v
        by_cases hne : new_stake_of account = old_stake_of s pubkey
        · rw [if_neg (by simp [hne])] at hlook
          have hbase := hagg v n a hlook
          rw [hne] at hupd
          have : dsum (if account.lamports = 0 then aerase pubkey s.stake_accounts
              else ainsert pubkey account s.stake_accounts) v
              = dsum s.stake_accounts v := by omega
          rw [this]
          exact hbase
        · rw [if_pos hne] at hlook
          cases hlk0 : alookup v s.vote_accounts with
          | none =>
            rw [alookup_applyDeltas_none hlk0] at hlook
            exact absurd hlook (by simp)
          | some e =>
            obtain ⟨n0, a0⟩ := e
            have hn0 := hagg v n0 a0 hlk0
            have hn0lt : n0 < U64M := by
              rw [hn0]
              exact Nat.mod_lt _ U64M_pos
            rw [alookup_applyDeltas_some hlk0 hn0lt] at hlook
            injection hlook with hpair
            injection hpair with hn ha
            subst hn
            rw [hn0, wsub_mod_of_le hle, wadd_mod_left]
            have hgoal : dsum s.stake_accounts v - pairContrib v (old_stake_of s pubkey)
                + pairContrib v (new_stake_of account)
                = dsum (if account.lamports = 0 then aerase pubkey s.stake_accounts
                    else ainsert pubkey account s.stake_accounts) v := by omega
            rw [hgoal]
    · have hs' : stake_api_check_id account.owner = false := by
        simpa using hs
      rw [store_other hv' hs']
      exact ⟨hnv, hns, hagg⟩

/-- Every reachable state satisfies the aggregation invariant. -/
theorem reachable_aggInvariant {s : Stakes} (h : Reachable s) : AggInvariant s := by
  induction h with
  | empty => exact aggInvariant_empty
  | step pubkey account _ ih => exact aggInvariant_store ih pubkey account

theorem wsub_eq_of_le {a b : Nat} (h : b ≤ a) (ha : a < U64M) : wsub a b = a - b := by
  simp only [wsub, U64M] at ha ⊢
  omega

theorem wadd_eq_of_lt {a b : Nat} (h : a + b < U64M) : wadd a b = a + b := by
  simp only [wadd]
  exact Nat.mod_eq_of_lt h

theorem calculate_stake_congr {s s' : Stakes} (h : s'.stake_accounts = s.stake_accounts)
    (v : Pubkey) : calculate_stake s' v = calculate_stake s v := by
  simp [calculate_stake, h]

/-! ## Concrete fixtures -/

def exVoteAcc : Account := { lamports := 1, owner := vote_program_id, stakeData := none }

def exVoteAcc2 : Account := { lamports := 5, owner := vote_program_id, stakeData := none }

def exVoteGone : Account := { lamports := 0, owner := vote_program_id, stakeData := none }

def exDelegAcc : Account :=
  { lamports := 1, owner := stake_program_id, stakeData := some (7, 10) }

def exDelegAcc42 : Account :=
  { lamports := 42, owner := stake_program_id, stakeData := some (7, 10) }

def exDelegUnknown : Account :=
  { lamports := 1, owner := stake_program_id, stakeData := some (99, 5) }

def exRedeleg : Account :=
  { lamports := 1, owner := stake_program_id, stakeData := some (9, 10) }

def exCloseAcc : Account :=
  { lamports := 0, owner := stake_program_id, stakeData := some (7, 10) }

def exOther : Account := { lamports := 5, owner := 3, stakeData := some (7, 10) }

/-- Validator `7` (balance 1) plus one delegation at `8` of amount `10`
targeting it. -/
def exState : Stakes := store (store emptyStakes 7 exVoteAcc) 8 exDelegAcc

/-- `exState` plus a second validator `9` with no delegations. -/
def exState2 : Stakes := store exState 9 exVoteAcc

theorem exState_reachable : Reachable exState :=
  Reachable.step 8 exDelegAcc (Reachable.step 7 exVoteAcc Reachable.empty)

/-! ## The claims -/

/-- C1: in every state reachable from the empty cache by `store` calls,
the cached aggregate of every validator present in `vote_accounts`
equals `calculate_stake` of that validator over the current delegation
table; delegations whose target is absent from the table are the only
permitted transient inconsistency (they are simply not represented). -/
theorem claim1_reachable_aggregate_eq_calculate_stake {s : Stakes} {v : Pubkey}
    {n : Nat} {a : Account} (h : Reachable s)
    (hv : alookup v s.vote_accounts = some (n, a)) :
    n = calculate_stake s v := by
  have hinv := reachable_aggInvariant h
  rw [calculate_stake_eq_spec]
  exact hinv.2.2 v n a hv

theorem claim1_witness : (10 : Nat) = calculate_stake exState 7 :=
  @claim1_reachable_aggregate_eq_calculate_stake exState 7 10 exVoteAcc
    exState_reachable (by decide)

/-- C2: `calculate_stake` returns the sum (as computed in `u64`
arithmetic, i.e. the exact sum reduced mod `2^64`) over all delegation
entries of the decoded amount for entries targeting the given voter,
with undecodable or differently-targeted entries contributing zero; as a
pure function of the state it does not modify the cache. -/
theorem claim2_calculate_stake_eq_spec_sum (s : Stakes) (v : Pubkey) :
    calculate_stake s v = specDelegatedSum s v % U64M :=
  calculate_stake_eq_spec s v

/-- C3: a nonzero-balance vote-owned `store` upserts the entry with the
new account as payload and keeps the previously cached stake when the
identity was already present, computing `calculate_stake` only when
absent; the delegation table is untouched. -/
theorem claim3_store_vote_upsert {s : Stakes} {pubkey : Pubkey} {account : Account}
    (h1 : account.owner = vote_program_id) (h2 : account.lamports ≠ 0) :
    (∀ n0 b, alookup pubkey s.vote_accounts = some (n0, b) →
      alookup pubkey (store s pubkey account).vote_accounts = some (n0, account)) ∧
    (alookup pubkey s.vote_accounts = none →
      alookup pubkey (store s pubkey account).vote_accounts
        = some (calculate_stake s pubkey, account)) ∧
    (store s pubkey account).stake_accounts = s.stake_accounts := by
  have hb : vote_api_check_id account.owner = true := by
    simp [vote_api_check_id, h1]
  rw [store_vote_pos hb h2]
  refine ⟨?_, ?_, rfl⟩
  · intro n0 b hl
    dsimp only
    rw [alookup_ainsert_self]
    simp [stored_vote_stake, hl]
  · intro hl
    dsimp only
    rw [alookup_ainsert_self]
    simp [stored_vote_stake, hl]

theorem claim3_witness :
    alookup 7 (store exState 7 exVoteAcc2).vote_accounts = some (10, exVoteAcc2) :=
  (@claim3_store_vote_upsert exState 7 exVoteAcc2 rfl (by decide)).1
    10 exVoteAcc (by decide)

/-- C4: a zero-balance vote-owned `store` removes the identity from the
validator table entirely, leaves the delegation table unchanged, and a
subsequent nonzero-balance vote-owned `store` of the same identity
re-creates the entry with its aggregate re-derived by full rescan over
the still-present delegations. -/
theorem claim4_store_vote_zero_removes {s : Stakes} {pubkey : Pubkey} {account : Account}
    (h1 : account.owner = vote_program_id) (h2 : account.lamports = 0)
    (hnk : NodupKeys s.vote_accounts) :
    alookup pubkey (store s pubkey account).vote_accounts = none ∧
    (store s pubkey account).stake_accounts = s.stake_accounts ∧
    (∀ account2 : Account, account2.owner = vote_program_id → account2.lamports ≠ 0 →
      alookup pubkey (store (store s pubkey account) pubkey account2).vote_accounts
        = some (calculate_stake s pubkey, account2)) := by
  have hb : vote_api_check_id account.owner = true := by
    simp [vote_api_check_id, h1]
  rw [store_vote_zero hb h2]
  have herased :
      alookup pubkey (aerase pubkey s.vote_accounts) = none :=
    alookup_aerase_self hnk
  refine ⟨herased, rfl, ?_⟩
  intro account2 h1' h2'
  have hb2 : vote_api_check_id account2.owner = true := by
    simp [vote_api_check_id, h1']
  rw [store_vote_pos hb2 h2']
  dsimp only
  rw [alookup_ainsert_self]
  have hval : stored_vote_stake { s with vote_accounts := aerase pubkey s.vote_accounts }
      pubkey = calculate_stake s pubkey := by
    unfold stored_vote_stake
    dsimp only
    rw [herased]
    exact calculate_stake_congr rfl pubkey
  rw [hval]

theorem claim4_witness :
    alookup 7 (store exState 7 exVoteGone).vote_accounts = none ∧
    alookup 7 (store (store exState 7 exVoteGone) 7 exVoteAcc2).vote_accounts
      = some (calculate_stake exState 7, exVoteAcc2) := by
  have h := @claim4_store_vote_zero_removes exState 7 exVoteGone rfl rfl (by decide)
  exact ⟨h.1, h.2.2 exVoteAcc2 rfl (by decide)⟩

/-- C5: a delegation-owned `store` adjusts validator-table entries only
via `and_modify`, which touches an entry only when its key already
exists (absent targets are silently skipped); consequently such a call
never adds or removes any key of the validator stake table. -/
theorem claim5_store_stake_preserves_vote_keys {s : Stakes} {pubkey : Pubkey}
    {account : Account} (h1 : account.owner = stake_program_id) :
    (store s pubkey account).vote_accounts.map Prod.fst
      = s.vote_accounts.map Prod.fst ∧
    (∀ k, alookup k s.vote_accounts = none →
      alookup k (store s pubkey account).vote_accounts = none) := by
  have hv' : vote_api_check_id account.owner = false := by
    simp [vote_api_check_id, h1, stake_program_id, vote_program_id]
  have hs : stake_api_check_id account.owner = true := by
    simp [stake_api_check_id, h1]
  rw [store_stake_eq hv' hs]
  by_cases hne : new_stake_of account = old_stake_of s pubkey
  · dsimp only
    rw [if_neg (by simp [hne])]
    exact ⟨rfl, fun k h => h⟩
  · dsimp only
    rw [if_pos hne]
    exact ⟨keys_applyDeltas _ _ _, fun k h => alookup_applyDeltas_none h⟩

theorem claim5_witness :
    (store exState 9 exDelegUnknown).vote_accounts.map Prod.fst
      = exState.vote_accounts.map Prod.fst ∧
    alookup 99 (store exState 9 exDelegUnknown).vote_accounts = none := by
  have h := @claim5_store_stake_preserves_vote_keys exState 9 exDelegUnknown rfl
  exact ⟨h.1, h.2 99 (by decide)⟩

/-- C6: when the decoded old pair and decoded new pair of a
delegation-owned `store` are structurally equal (including both being
absent), the validator stake table is left entirely unchanged. -/
theorem claim6_store_stake_equal_pairs_no_change {s : Stakes} {pubkey : Pubkey}
    {account : Account} (h1 : account.owner = stake_program_id)
    (heq : new_stake_of account = old_stake_of s pubkey) :
    (store s pubkey account).vote_accounts = s.vote_accounts := by
  have hv' : vote_api_check_id account.owner = false := by
    simp [vote_api_check_id, h1, stake_program_id, vote_program_id]
  have hs : stake_api_check_id account.owner = true := by
    simp [stake_api_check_id, h1]
  rw [store_stake_eq hv' hs]
  dsimp only
  rw [if_neg (by simp [heq])]

theorem claim6_witness :
    (store exState 8 exDelegAcc42).vote_accounts = exState.vote_accounts :=
  @claim6_store_stake_equal_pairs_no_change exState 8 exDelegAcc42 rfl (by decide)

/-- C7: when validators `A` and `B` are both present and the delegation
at `pubkey` decodes to `(A, S)`, a single `store` re-targeting it to
`(B, S)` decreases A's aggregate by exactly `S` and increases B's by
exactly `S`, both in that one call. -/
theorem claim7_redelegation_moves_stake {s : Stakes} {pubkey A B : Pubkey}
    {account accA accB : Account} {S nA nB : Nat}
    (h1 : account.owner = stake_program_id)
    (hAB : A ≠ B)
    (hold : old_stake_of s pubkey = some (A, S))
    (hnew : new_stake_of account = some (B, S))
    (hA : alookup A s.vote_accounts = some (nA, accA))
    (hB : alookup B s.vote_accounts = some (nB, accB))
    (hnAlt : nA < U64M) (hSle : S ≤ nA) (hnBS : nB + S < U64M) :
    alookup A (store s pubkey account).vote_accounts = some (nA - S, accA) ∧
    alookup B (store s pubkey account).vote_accounts = some (nB + S, accB) := by
  have hv' : vote_api_check_id account.owner = false := by
    simp [vote_api_check_id, h1, stake_program_id, vote_program_id]
  have hs : stake_api_check_id account.owner = true := by
    simp [stake_api_check_id, h1]
  have hBA : B ≠ A := Ne.symm hAB
  have hne : new_stake_of account ≠ old_stake_of s pubkey := by
    rw [hold, hnew]
    simp [hBA]
  rw [store_stake_eq hv' hs]
  dsimp only
  rw [if_pos hne, hold, hnew]
  constructor
  · rw [alookup_applyDeltas_some hA hnAlt]
    have hpA : pairContrib A (some (A, S)) = S := by simp [pairContrib]
    have hpB : pairContrib A (some (B, S)) = 0 := by simp [pairContrib, hAB]
    rw [hpA, hpB, wsub_eq_of_le hSle hnAlt,
      wadd_zero_of_lt (Nat.lt_of_le_of_lt (Nat.sub_le _ _) hnAlt)]
  · have hnBlt : nB < U64M := by omega
    rw [alookup_applyDeltas_some hB hnBlt]
    have hpA : pairContrib B (some (A, S)) = 0 := by simp [pairContrib, hBA]
    have hpB : pairContrib B (some (B, S)) = S := by simp [pairContrib]
    rw [hpA, hpB, wsub_zero_of_lt hnBlt, wadd_eq_of_lt hnBS]

theorem claim7_witness :
    alookup 7 (store exState2 8 exRedeleg).vote_accounts = some (0, exVoteAcc) ∧
    alookup 9 (store exState2 8 exRedeleg).vote_accounts = some (10, exVoteAcc) := by
  have h := @claim7_redelegation_moves_stake exState2 8 7 9 exRedeleg exVoteAcc
    exVoteAcc 10 10 0 rfl (by decide) (by decide) (by decide)
    (by decide) (by decide) (by decide) (by decide) (by decide)
  exact h

/-- C8: storing a zero-balance update for a delegation whose current
entry decodes to `(V, S)`, where the closing payload still decodes a
target and `V` is present in the validator table, reduces V's aggregate
by exactly `S` and removes the delegation's identity from the delegation
table. -/
theorem claim8_closure_zeroes_contribution {s : Stakes} {pubkey V W : Pubkey}
    {account acc0 accV : Account} {S nV : Nat}
    (h1 : account.owner = stake_program_id) (h2 : account.lamports = 0)
    (hen : alookup pubkey s.stake_accounts = some acc0)
    (hdec : voter_pubkey_and_stake_from acc0 = some (V, S))
    (hW : voter_pubkey_from account = some W)
    (hV : alookup V s.vote_accounts = some (nV, accV))
    (hnVlt : nV < U64M) (hSle : S ≤ nV)
    (hnk : NodupKeys s.stake_accounts) :
    alookup V (store s pubkey account).vote_accounts = some (nV - S, accV) ∧
    alookup pubkey (store s pubkey account).stake_accounts = none := by
  have hv' : vote_api_check_id account.owner = false := by
    simp [vote_api_check_id, h1, stake_program_id, vote_program_id]
  have hs : stake_api_check_id account.owner = true := by
    simp [stake_api_check_id, h1]
  have hold : old_stake_of s pubkey = some (V, S) := by
    rw [old_stake_of_eq_some hen, hdec]
  have hnew : new_stake_of account = some (W, 0) := by
    simp [new_stake_of, h2, hW]
  rw [store_stake_eq hv' hs]
  dsimp only
  constructor
  · by_cases hne : new_stake_of account = old_stake_of s pubkey
    · rw [if_neg (by simp [hne])]
      have hS0 : S = 0 := by
        rw [hnew, hold] at hne
        injection hne with hpair
        injection hpair with hWV hS
        omega
      rw [hV, hS0, Nat.sub_zero]
    · rw [if_pos hne, hold, hnew]
      rw [alookup_applyDeltas_some hV hnVlt]
      have hpV : pairContrib V (some (V, S)) = S := by simp [pairContrib]
      have hpW : pairContrib V (some (W, 0)) = 0 := by
        by_cases hvw : V = W <;> simp [pairContrib, hvw]
      rw [hpV, hpW, wsub_eq_of_le hSle hnVlt,
        wadd_zero_of_lt (Nat.lt_of_le_of_lt (Nat.sub_le _ _) hnVlt)]
  · rw [if_pos h2]
    exact alookup_aerase_self hnk

theorem claim8_witness :
    alookup 7 (store exState 8 exCloseAcc).vote_accounts = some (0, exVoteAcc) ∧
    alookup 8 (store exState 8 exCloseAcc).stake_accounts = none := by
  have h := @claim8_closure_zeroes_contribution exState 8 7 7 exCloseAcc exDelegAcc
    exVoteAcc 10 10 rfl rfl (by decide) (by decide)
    (by decide) (by decide) (by decide) (by decide) (by decide)
  exact h

/-- C9: storing an account owned by neither the vote program nor the
stake program leaves the whole cache (both maps) exactly unchanged. -/
theorem claim9_store_other_noop {s : Stakes} {pubkey : Pubkey} {account : Account}
    (h1 : account.owner ≠ vote_program_id) (h2 : account.owner ≠ stake_program_id) :
    store s pubkey account = s := by
  have hv' : vote_api_check_id account.owner = false := by
    simp [vote_api_check_id, h1]
  have hs' : stake_api_check_id account.owner = false := by
    simp [stake_api_check_id, h2]
  exact store_other hv' hs'

theorem claim9_witness : store exState 8 exOther = exState :=
  @claim9_store_other_noop exState 8 exOther (by decide) (by decide)

/-! ## C10: `u64` underflow of the subtract adjustment -/

/-- A delegation of `2^63` targeting validator `7`. -/
def cexBig : Account :=
  { lamports := 1, owner := stake_program_id, stakeData := some (7, 9223372036854775808) }

/-- A re-delegation of the entry at `8` down to amount `5`. -/
def cexNew : Account :=
  { lamports := 1, owner := stake_program_id, stakeData := some (7, 5) }

/-- Validator `7` plus two delegations of `2^63` each: the cached
aggregate wraps to `0` while the exact delegated sum is `2^64`. -/
def cexState : Stakes :=
  store (store (store emptyStakes 7 exVoteAcc) 8 cexBig) 9 cexBig

/-- C10 counterexample: `cexState` is reachable, the pending
delegation-owned store at `8` decodes the old pair `(7, 2^63)`, target
`7` is present in the validator table — but its cached aggregate is `0`,
strictly below the old amount, so the `u64` subtraction wraps (the
post-store aggregate is `2^63 + 5`, not `0 - 2^63 + 5`). -/
theorem claim10_counterexample :
    Reachable cexState ∧
    cexNew.owner = stake_program_id ∧
    old_stake_of cexState 8 = some (7, 9223372036854775808) ∧
    alookup 7 cexState.vote_accounts = some (0, exVoteAcc) ∧
    ¬ (9223372036854775808 ≤ 0) ∧
    alookup 7 (store cexState 8 cexNew).vote_accounts
      = some (9223372036854775813, exVoteAcc) := by
  refine ⟨?_, rfl, by decide, by decide, by decide, by decide⟩
  exact Reachable.step 9 cexBig (Reachable.step 8 cexBig
    (Reachable.step 7 exVoteAcc Reachable.empty))

/-- C10 amended: in every reachable state, whenever a delegation-owned
store decodes an old pair `(old_target, old_amount)` and `old_target`
is present in the validator stake table, **and the exact (unbounded)
delegated sum of `old_target` fits in a `u64`** (no overflow ever
occurred while aggregating it), the cached aggregate is at least
`old_amount`, so the `u64` subtraction does not wrap. -/
theorem claim10_amended_no_underflow {s : Stakes} {pubkey oldTarget : Pubkey}
    {oldAmt n : Nat} {a : Account} (h : Reachable s)
    (hold : old_stake_of s pubkey = some (oldTarget, oldAmt))
    (hv : alookup oldTarget s.vote_accounts = some (n, a))
    (hsum : specDelegatedSum s oldTarget < U64M) :
    oldAmt ≤ n ∧ wsub n oldAmt = n - oldAmt := by
  have hinv := reachable_aggInvariant h
  have hn := hinv.2.2 oldTarget n a hv
  have hdsum_lt : dsum s.stake_accounts oldTarget < U64M := hsum
  have hneq : n = dsum s.stake_accounts oldTarget := by
    rw [hn, Nat.mod_eq_of_lt hdsum_lt]
  obtain ⟨acc0, hacc0, hdec⟩ : ∃ acc0, alookup pubkey s.stake_accounts = some acc0 ∧
      voter_pubkey_and_stake_from acc0 = some (oldTarget, oldAmt) := by
    cases hlk : alookup pubkey s.stake_accounts with
    | none =>
      rw [old_stake_of_eq_none hlk] at hold
      cases hold
    | some acc0 =>
      refine ⟨acc0, rfl, ?_⟩
      rw [old_stake_of_eq_some hlk] at hold
      exact hold
  have hcon : delegContrib oldTarget acc0 = oldAmt := by
    rw [delegContrib_eq_pairContrib, hdec]
    simp [pairContrib]
  have hle : oldAmt ≤ dsum s.stake_accounts oldTarget := by
    have := delegContrib_le_dsum hacc0 oldTarget
    omega
  have hOle : oldAmt ≤ n := by omega
  refine ⟨hOle, wsub_eq_of_le hOle (by omega)⟩

theorem claim10_amended_witness : (10 : Nat) ≤ 10 ∧ wsub 10 10 = 10 - 10 :=
  @claim10_amended_no_underflow exState 8 7 10 10 exVoteAcc
    exState_reachable (by decide) (by decide) (by decide)
